import Mathlib

/-!
Shallow embedding of the HopSkipJump attack (`src/attacks/hopskipjump.py`).

Samples are lists of rationals.  The classifier (`self.estimator` followed by
`argmax`, optionally after a softmax which does not change the argmax) is
modelled as a deterministic `Oracle : Sample → ℕ`.  Floating-point square
roots (`np.sqrt`, `np.linalg.norm`) are modelled by an abstract function
`sqrtf : ℚ → ℚ`; no theorem below depends on its values.  Random draws
(`np.random`) are modelled by explicit streams passed as arguments.  The two
loops of the source whose iteration count depends on oracle answers (the
bisection `while` loop and the step-size halving `while` loop) are modelled
with explicit fuel and return `none` when the fuel is exhausted with the loop
still running.
-/

namespace HSJ

abbrev Sample := List ℚ

abbrev Oracle := Sample → ℕ

/-- The two norms accepted by `_check_params`: `2` and `np.inf`/`"inf"`. -/
inductive NormT
  | l2
  | linf
deriving DecidableEq, Repr

/-- Configuration fields of the `HopSkipJump` object.  `theta` is the derived
binary-search threshold (`0.01/sqrt(prod(shape))` resp. `0.01/prod(shape)`),
kept as a field since its defining square root is a float operation; `numel`
is `np.prod(self._input_shape)`. -/
structure Config where
  targeted : Bool
  norm : NormT
  max_iter : ℕ
  max_eval : ℕ
  init_eval : ℕ
  init_size : ℕ
  theta : ℚ
  numel : ℕ
deriving Repr

/-- `np.clip(v, lo, hi)` on a scalar. -/
def clipScalar (lo hi v : ℚ) : ℚ := min (max v lo) hi

/-- `np.clip(s, lo, hi)` elementwise. -/
def clipSample (lo hi : ℚ) (s : Sample) : Sample := s.map (clipScalar lo hi)

/-- Elementwise sum of two samples. -/
def vadd (a b : Sample) : Sample := List.zipWith (· + ·) a b

/-- Elementwise difference of two samples. -/
def vsub (a b : Sample) : Sample := List.zipWith (· - ·) a b

/-- Scalar multiple of a sample. -/
def smul (c : ℚ) (s : Sample) : Sample := s.map (fun v => c * v)

/-- Sum of squares of the elements (the square of the L2 norm). -/
def sumSq (s : Sample) : ℚ := (s.map fun v => v * v).sum

/-- `np.mean` of a list of scalars. -/
def meanQ (l : List ℚ) : ℚ := l.sum / l.length

/-- Elementwise sum of a batch of samples (`np.sum(..., axis=0)`). -/
def vsum : List Sample → Sample
  | [] => []
  | s :: rest => rest.foldl vadd s

/-- `np.mean(batch, axis=0)`: elementwise mean of a batch of samples. -/
def meanVec (ss : List Sample) : Sample := (vsum ss).map (fun v => v / (ss.length : ℚ))

/-- `np.sign` on a scalar. -/
def signQ (q : ℚ) : ℚ := if q < 0 then -1 else if q = 0 then 0 else 1

/-- `np.max(abs(original_sample - current_sample))`. -/
def linfDist (orig cur : Sample) : ℚ := (List.zipWith (fun o c => |o - c|) orig cur).foldr max 0

/-- The distance between original and current sample used by `_attack` and
`_compute_delta`: `np.linalg.norm` (with its float square root abstracted as
`sqrtf`) for norm 2, `np.max(abs(...))` for norm ∞. -/
def distNorm (norm : NormT) (sqrtf : ℚ → ℚ) (orig cur : Sample) : ℚ :=
  match norm with
  | .l2 => sqrtf (sumSq (vsub orig cur))
  | .linf => linfDist orig cur

/-- `_adversarial_satisfactory` for one sample: clip to `[cmin, cmax]`, query
the oracle, compare with `target` (`==` when targeted, `!=` otherwise). -/
def adversarialSatisfactory (cfg : Config) (oracle : Oracle) (target : ℕ)
    (cmin cmax : ℚ) (s : Sample) : Bool :=
  let s' := clipSample cmin cmax s
  if cfg.targeted then decide (oracle s' = target) else decide (oracle s' ≠ target)

/-- `_interpolate`: affine interpolation for norm 2, per-coordinate clipping
of `current` into the `alpha`-box around `original` for norm ∞. -/
def interpolate (cur orig : Sample) (alpha : ℚ) : NormT → Sample
  | .l2 => List.zipWith (fun c o => (1 - alpha) * o + alpha * c) cur orig
  | .linf => List.zipWith (fun c o => clipScalar (o - alpha) (o + alpha) c) cur orig

/-- The `while (upper_bound - lower_bound) > threshold` loop of
`_binary_search`, with the two `np.where` updates written out on the boolean
`satisfied`.  Returns the final `upper_bound`, or `none` when `fuel` runs out
with the loop condition still true. -/
def binSearchLoop (advp : ℚ → Bool) (threshold : ℚ) : ℕ → ℚ → ℚ → Option ℚ
  | 0, l, u => if u - l > threshold then none else some u
  | fuel + 1, l, u =>
    if u - l > threshold then
      let alpha := (u + l) / 2
      let sat := advp alpha
      let l' := if sat = false then alpha else l
      let u' := if sat = true then alpha else u
      binSearchLoop advp threshold fuel l' u'
    else some u

/-- `_binary_search`.  `thresholdOpt = none` corresponds to the Python default
`threshold=None`, in which case the threshold is `self.theta` for norm 2 and
`np.minimum(upper_bound * self.theta, self.theta)` for norm ∞. -/
def binarySearch (cfg : Config) (oracle : Oracle) (fuel : ℕ) (cur orig : Sample)
    (target : ℕ) (norm : NormT) (cmin cmax : ℚ) (thresholdOpt : Option ℚ) : Option Sample :=
  let ub : ℚ := match norm with
    | .l2 => 1
    | .linf => linfDist orig cur
  let lb : ℚ := 0
  let threshold : ℚ := match thresholdOpt with
    | some t => t
    | none => match norm with
      | .l2 => cfg.theta
      | .linf => min (ub * cfg.theta) cfg.theta
  (binSearchLoop
      (fun a => adversarialSatisfactory cfg oracle target cmin cmax (interpolate cur orig a norm))
      threshold fuel lb ub).map
    (fun u => interpolate cur orig u norm)

/-- `random_img * mask + x * (1 - mask)` elementwise. -/
def maskCombine : (img mask x : Sample) → Sample
  | i :: is, m :: ms, v :: vs => (i * m + v * (1 - m)) :: maskCombine is ms vs
  | _, _, _ => []

/-- Apply the optional mask to a random draw, as in `_init_sample`. -/
def maskApply (mask : Option Sample) (x img : Sample) : Sample :=
  match mask with
  | none => img
  | some m => maskCombine img m x

/-- The targeted random-draw loop of `_init_sample` (lines 261-283): it never
breaks, overwriting `initial_sample` at every draw that classifies as `y`.
The recorded pair holds the binary-search projection (fueled, hence an
`Option`) and the draw's predicted class. -/
def initLoopTargeted (cfg : Config) (oracle : Oracle) (fuel : ℕ) (x : Sample) (y : ℕ)
    (mask : Option Sample) (cmin cmax : ℚ) :
    List Sample → Option (Option Sample × ℕ) → Option (Option Sample × ℕ)
  | [], acc => acc
  | d :: rest, acc =>
    let d' := maskApply mask x d
    let c := oracle d'
    if c = y then
      initLoopTargeted cfg oracle fuel x y mask cmin cmax rest
        (some (binarySearch cfg oracle fuel d' x y .l2 cmin cmax (some (1 / 1000)), c))
    else
      initLoopTargeted cfg oracle fuel x y mask cmin cmax rest acc

/-- The untargeted random-draw loop of `_init_sample` (lines 291-314): it
stops (`break`) at the first draw whose predicted class differs from `y_p`,
recording the projection together with `y_p`. -/
def initLoopUntargeted (cfg : Config) (oracle : Oracle) (fuel : ℕ) (x : Sample) (y_p : ℕ)
    (mask : Option Sample) (cmin cmax : ℚ) :
    List Sample → Option (Option Sample × ℕ)
  | [] => none
  | d :: rest =>
    let d' := maskApply mask x d
    let c := oracle d'
    if c ≠ y_p then
      some (binarySearch cfg oracle fuel d' x y_p .l2 cmin cmax (some (1 / 1000)), y_p)
    else
      initLoopUntargeted cfg oracle fuel x y_p mask cmin cmax rest

/-- The `adv_init` short-circuit of the targeted branch, reading line 257
(`adv_init is not None and init_pred == y`) as a class comparison (a `None`
`init_pred` never equals an integer).  This is an idealization: in the source
`init_pred` is the un-argmaxed score row stored at line 139, on which this
comparison raises — see `initSampleE` for the faithful model. -/
def advInitHitTargeted (y : ℕ) : Option Sample → Option ℕ → Option (Option Sample × ℕ)
  | some ai, some ip => if ip = y then some (some ai, ip) else none
  | some _, none => none
  | none, _ => none

/-- The `adv_init` short-circuit of the untargeted branch, reading line 287
(`adv_init is not None and init_pred != y_p`) as a class comparison (a `None`
`init_pred` is `!=` any integer); the recorded label is `y_p`.  Same
idealization as `advInitHitTargeted`: the source comparison on the
un-argmaxed row raises — see `initSampleE`. -/
def advInitHitUntargeted (y_p : ℕ) : Option Sample → Option ℕ → Option (Option Sample × ℕ)
  | some ai, some ip => if ip ≠ y_p then some (some ai, y_p) else none
  | some ai, none => some (some ai, y_p)
  | none, _ => none

/-- `_init_sample`.  The stream `rng` supplies the uniform random draws
(`nprd.uniform(clip_min, clip_max, size=x.shape)`); the loop consumes at most
`cfg.init_size` of them. -/
def initSample (cfg : Config) (oracle : Oracle) (fuel : ℕ) (x : Sample) (y y_p : ℕ)
    (init_pred : Option ℕ) (adv_init : Option Sample) (mask : Option Sample)
    (cmin cmax : ℚ) (rng : ℕ → Sample) : Option (Option Sample × ℕ) :=
  let draws := (List.range cfg.init_size).map rng
  if cfg.targeted then
    if y = y_p then none
    else
      match advInitHitTargeted y adv_init init_pred with
      | some r => some r
      | none => initLoopTargeted cfg oracle fuel x y mask cmin cmax draws none
  else
    match advInitHitUntargeted y_p adv_init init_pred with
    | some r => some r
    | none => initLoopUntargeted cfg oracle fuel x y_p mask cmin cmax draws

/-- `_compute_delta`. -/
def computeDelta (cfg : Config) (sqrtf : ℚ → ℚ) (cur orig : Sample)
    (cmin cmax : ℚ) (curr_iter : ℕ) : ℚ :=
  if curr_iter = 0 then (1 / 10) * (cmax - cmin)
  else
    match cfg.norm with
    | .l2 => sqrtf (cfg.numel : ℚ) * cfg.theta * distNorm .l2 sqrtf orig cur
    | .linf => (cfg.numel : ℚ) * cfg.theta * distNorm .linf sqrtf orig cur

/-- `min(int(self.init_eval * np.sqrt(self.curr_iter + 1)), self.max_eval)`. -/
def numEval (cfg : Config) (sqrtf : ℚ → ℚ) (it : ℕ) : ℕ :=
  min (Int.toNat ⌊(cfg.init_eval : ℚ) * sqrtf ((it : ℚ) + 1)⌋) cfg.max_eval

/-- The applied perturbations of `_compute_update`: the raw noises (from the
stream `noisef`; Gaussian for norm 2, uniform for norm ∞ — the distribution is
irrelevant to the algebra), masked, normalized to unit L2 magnitude (via the
abstract square root), scaled by `delta`, added to `current_sample`, clipped,
and recomputed as `(eval_samples - current_sample) / delta`. -/
def updatePerturbations (cur : Sample) (num_eval : ℕ) (delta : ℚ)
    (mask : Option Sample) (cmin cmax : ℚ) (noisef : ℕ → Sample) (sqrtf : ℚ → ℚ) :
    List Sample :=
  let rnd0 := (List.range num_eval).map noisef
  let rnd1 := match mask with
    | none => rnd0
    | some m => rnd0.map (fun n => List.zipWith (· * ·) n m)
  let rnd2 := rnd1.map (fun n => n.map (fun v => v / sqrtf (sumSq n)))
  let evals := rnd2.map (fun n => clipSample cmin cmax (vadd cur (smul delta n)))
  evals.map (fun e => (vsub e cur).map (fun v => v / delta))

/-- The clipped probe samples `eval_samples` of `_compute_update`. -/
def updateEvalSamples (cur : Sample) (num_eval : ℕ) (delta : ℚ)
    (mask : Option Sample) (cmin cmax : ℚ) (noisef : ℕ → Sample) (sqrtf : ℚ → ℚ) :
    List Sample :=
  let rnd0 := (List.range num_eval).map noisef
  let rnd1 := match mask with
    | none => rnd0
    | some m => rnd0.map (fun n => List.zipWith (· * ·) n m)
  let rnd2 := rnd1.map (fun n => n.map (fun v => v / sqrtf (sumSq n)))
  rnd2.map (fun n => clipSample cmin cmax (vadd cur (smul delta n)))

/-- The final normalization of `_compute_update`: `grad / np.linalg.norm(grad)`
for norm 2 (square root abstracted), `np.sign(grad)` for norm ∞. -/
def normFinal (norm : NormT) (sqrtf : ℚ → ℚ) (grad : Sample) : Sample :=
  match norm with
  | .l2 => grad.map (fun v => v / sqrtf (sumSq grad))
  | .linf => grad.map signQ

/-- The per-probe results of `_adversarial_satisfactory` on the probe batch of
`_compute_update`. -/
def updateSatisfied (cfg : Config) (oracle : Oracle) (sqrtf : ℚ → ℚ) (cur : Sample)
    (num_eval : ℕ) (delta : ℚ) (target : ℕ) (mask : Option Sample)
    (cmin cmax : ℚ) (noisef : ℕ → Sample) : List Bool :=
  (updateEvalSamples cur num_eval delta mask cmin cmax noisef sqrtf).map
    (adversarialSatisfactory cfg oracle target cmin cmax)

/-- `_compute_update`. -/
def computeUpdate (cfg : Config) (oracle : Oracle) (sqrtf : ℚ → ℚ) (cur : Sample)
    (num_eval : ℕ) (delta : ℚ) (target : ℕ) (mask : Option Sample)
    (cmin cmax : ℚ) (noisef : ℕ → Sample) : Sample :=
  let perts := updatePerturbations cur num_eval delta mask cmin cmax noisef sqrtf
  let satisfied := updateSatisfied cfg oracle sqrtf cur num_eval delta target mask cmin cmax noisef
  let f_val : List ℚ := satisfied.map (fun b => 2 * (if b then (1 : ℚ) else 0) - 1)
  let grad : Sample :=
    if meanQ f_val = 1 then meanVec perts
    else if meanQ f_val = -1 then smul (-1) (meanVec perts)
    else meanVec (List.zipWith (fun f p => smul (f - meanQ f_val) p) f_val perts)
  normFinal cfg.norm sqrtf grad

/-- The `while not success` step-size halving loop of `_attack`: halve
`epsilon` first, then test `current_sample + epsilon * update`.  `none` means
the fuel ran out with every tested candidate rejected. -/
def stepSizeSearch (advp : Sample → Bool) : ℕ → ℚ → Sample → Sample → Option Sample
  | 0, _, _, _ => none
  | fuel + 1, eps, cur, upd =>
    let eps' := eps / 2
    let pot := vadd cur (smul eps' upd)
    if advp pot then some pot else stepSizeSearch advp fuel eps' cur upd

/-- The main loop of `_attack`: `k` remaining iterations, `it` the current
value of `curr_iter`. -/
def attackLoop (cfg : Config) (oracle : Oracle) (sqrtf : ℚ → ℚ)
    (noisef : ℕ → ℕ → Sample) (bsFuel stepFuel : ℕ) (orig : Sample) (target : ℕ)
    (mask : Option Sample) (cmin cmax : ℚ) : ℕ → ℕ → Sample → Option Sample
  | 0, _, cur => some cur
  | k + 1, it, cur =>
    let delta := computeDelta cfg sqrtf cur orig cmin cmax it
    match binarySearch cfg oracle bsFuel cur orig target cfg.norm cmin cmax none with
    | none => none
    | some cur' =>
      let ne := numEval cfg sqrtf it
      let upd := computeUpdate cfg oracle sqrtf cur' ne delta target mask cmin cmax (noisef it)
      let eps0 := 2 * distNorm cfg.norm sqrtf orig cur' / sqrtf ((it : ℚ) + 1)
      match stepSizeSearch (fun s => adversarialSatisfactory cfg oracle target cmin cmax s)
          stepFuel eps0 cur' upd with
      | none => none
      | some pot =>
        attackLoop cfg oracle sqrtf noisef bsFuel stepFuel orig target mask cmin cmax
          k (it + 1) (clipSample cmin cmax pot)

/-- `_attack`, starting from `curr_iter = start`. -/
def attack (cfg : Config) (oracle : Oracle) (sqrtf : ℚ → ℚ) (noisef : ℕ → ℕ → Sample)
    (bsFuel stepFuel : ℕ) (initial orig : Sample) (target : ℕ) (mask : Option Sample)
    (cmin cmax : ℚ) (start : ℕ) : Option Sample :=
  attackLoop cfg oracle sqrtf noisef bsFuel stepFuel orig target mask cmin cmax
    cfg.max_iter start initial

/-- `_perturb`: on initialization failure return the original sample `x`
unchanged; otherwise run `_attack` from the initial sample. -/
def perturb (cfg : Config) (oracle : Oracle) (sqrtf : ℚ → ℚ) (noisef : ℕ → ℕ → Sample)
    (rng : ℕ → Sample) (bsFuel stepFuel : ℕ) (x : Sample) (y y_p : ℕ)
    (init_pred : Option ℕ) (adv_init : Option Sample) (mask : Option Sample)
    (cmin cmax : ℚ) (start : ℕ) : Option Sample :=
  match initSample cfg oracle bsFuel x y y_p init_pred adv_init mask cmin cmax rng with
  | none => some x
  | some (proj, lbl) =>
    match proj with
    | none => none
    | some initial =>
      attack cfg oracle sqrtf noisef bsFuel stepFuel initial x lbl mask cmin cmax start

/-- The per-sample body of `generate`, with the initial-example prediction
idealized: `y_p` is the oracle's class on `x`, and `init_pred` is taken to be
the argmax class of the (already mask-combined) initial adversarial example,
so the `adv_init` shortcuts of `_init_sample` compare classes.  In the source,
line 139 stores the estimator's raw output without an argmax, and those
comparisons raise instead — see `generateOneE` for the faithful model; the
idealization only adds behaviors.  `generate` passes `mask=None` to
`_perturb` in both the targeted and the untargeted call (lines 166 and 178 of
the source), so the mask never reaches the search.  The source passes `y=-1`
in the untargeted call; the untargeted paths never read `y`, so `y` is passed
through unchanged here. -/
def generateOne (cfg : Config) (oracle : Oracle) (sqrtf : ℚ → ℚ)
    (noisef : ℕ → ℕ → Sample) (rng : ℕ → Sample) (bsFuel stepFuel : ℕ)
    (x : Sample) (y : ℕ) (adv_init : Option Sample) (cmin cmax : ℚ) : Option Sample :=
  let y_p := oracle x
  let init_pred := adv_init.map oracle
  perturb cfg oracle sqrtf noisef rng bsFuel stepFuel x y y_p init_pred adv_init none
    cmin cmax 0

/-- The Python error raised when a multi-element tensor is used as a truth
value. -/
def tensorBoolErr : String :=
  "RuntimeError: Boolean value of Tensor with more than one element is ambiguous"

/-- Faithful model of `_init_sample` as `generate` invokes it.  Line 139 of
the source stores `init_preds = self.estimator(x_adv_init)` without an argmax
(contrast lines 123-127 for `x`), so the per-sample `init_pred` is a raw
score row with one entry per class.  The guards at line 257
(`adv_init is not None and init_pred == y`) and line 287
(`adv_init is not None and init_pred != y_p`) then take the truth value of a
multi-element elementwise comparison, which raises for any classifier with at
least two classes.  Hence: the targeted `y == y_p` exit (line 253) precedes
the raise; every other path with `adv_init` present errors; the draw loops
run only when `adv_init` is `None`.  The raw `init_pred` row is not a
parameter because no completed path consults its value. -/
def initSampleE (cfg : Config) (oracle : Oracle) (fuel : ℕ) (x : Sample) (y y_p : ℕ)
    (adv_init mask : Option Sample) (cmin cmax : ℚ) (rng : ℕ → Sample) :
    Except String (Option (Option Sample × ℕ)) :=
  let draws := (List.range cfg.init_size).map rng
  if cfg.targeted then
    if y = y_p then .ok none
    else
      match adv_init with
      | some _ => .error tensorBoolErr
      | none => .ok (initLoopTargeted cfg oracle fuel x y mask cmin cmax draws none)
  else
    match adv_init with
    | some _ => .error tensorBoolErr
    | none => .ok (initLoopUntargeted cfg oracle fuel x y_p mask cmin cmax draws)

/-- `_perturb` over the faithful `initSampleE`: an error propagates, an
initialization failure returns `x` unchanged, and otherwise `_attack` runs
from the initial sample (a `none` inside the `ok` is the fuel artifact of a
run still inside a loop). -/
def perturbE (cfg : Config) (oracle : Oracle) (sqrtf : ℚ → ℚ) (noisef : ℕ → ℕ → Sample)
    (rng : ℕ → Sample) (bsFuel stepFuel : ℕ) (x : Sample) (y y_p : ℕ)
    (adv_init mask : Option Sample) (cmin cmax : ℚ) (start : ℕ) :
    Except String (Option Sample) :=
  match initSampleE cfg oracle bsFuel x y y_p adv_init mask cmin cmax rng with
  | .error e => .error e
  | .ok none => .ok (some x)
  | .ok (some (proj, lbl)) =>
    match proj with
    | none => .ok none
    | some initial =>
      .ok (attack cfg oracle sqrtf noisef bsFuel stepFuel initial x lbl mask cmin cmax start)

/-- The per-sample body of `generate` over the faithful `_init_sample` model:
`y_p` is the oracle's class on `x`, and `mask=None` is hardcoded exactly as in
`generateOne`. -/
def generateOneE (cfg : Config) (oracle : Oracle) (sqrtf : ℚ → ℚ)
    (noisef : ℕ → ℕ → Sample) (rng : ℕ → Sample) (bsFuel stepFuel : ℕ)
    (x : Sample) (y : ℕ) (adv_init : Option Sample) (cmin cmax : ℚ) :
    Except String (Option Sample) :=
  perturbE cfg oracle sqrtf noisef rng bsFuel stepFuel x y (oracle x) adv_init none cmin cmax 0

/-- `np.min` over the flattened batch (batches are nonempty in use). -/
def batchMin (xs : List Sample) : ℚ :=
  (xs.flatten).foldr min ((xs.flatten).headD 0)

/-- `np.max` over the flattened batch. -/
def batchMax (xs : List Sample) : ℚ :=
  (xs.flatten).foldr max ((xs.flatten).headD 0)

/-- The per-sample dispatch of `generate` once `clip_min`/`clip_max`, the
predictions and the preprocessed initial adversarial examples are known. -/
def generateCore (cfg : Config) (oracle : Oracle) (sqrtf : ℚ → ℚ)
    (noisef : ℕ → ℕ → ℕ → Sample) (rngs : ℕ → ℕ → Sample) (bsFuel stepFuel : ℕ)
    (xs : List Sample) (ys : Option (List ℕ)) (inits : Option (List Sample))
    (cmin cmax : ℚ) : Except String (List (Option Sample)) :=
  if cfg.targeted ∧ ys = none then
    .error "ValueError: Target labels y need to be provided for a targeted attack."
  else
    .ok <| (List.range xs.length).map fun i =>
      let x := xs.getD i []
      let y : ℕ := match ys with
        | some l => l.getD i 0
        | none => 0
      let ai : Option Sample := match inits with
        | some l => some (l.getD i [])
        | none => none
      generateOne cfg oracle sqrtf (noisef i) (rngs i) bsFuel stepFuel x y ai cmin cmax

/-- `generate`.  `clip_min`/`clip_max` are the min/max of the input batch.
When `x_adv_init` is supplied, the source runs
`for i in range(...): if mask[i] is not None: x_adv_init[i] = x_adv_init[i]*mask[i] + x[i]*(1-mask[i])`,
which subscripts `mask` unconditionally: with `mask = None` this raises a
`TypeError`, modelled as an `Except.error`.  With a mask supplied, `mask[i]`
is an array row (never `None`), so the combination is applied to every row. -/
def generateBatch (cfg : Config) (oracle : Oracle) (sqrtf : ℚ → ℚ)
    (noisef : ℕ → ℕ → ℕ → Sample) (rngs : ℕ → ℕ → Sample) (bsFuel stepFuel : ℕ)
    (xs : List Sample) (ys : Option (List ℕ)) (mask : Option (List Sample))
    (x_adv_init : Option (List Sample)) : Except String (List (Option Sample)) :=
  let cmin := batchMin xs
  let cmax := batchMax xs
  match x_adv_init with
  | some inits =>
    match mask with
    | none => .error "TypeError: NoneType object is not subscriptable"
    | some ms =>
      let inits' := (List.range inits.length).map fun i =>
        maskCombine (inits.getD i []) (ms.getD i []) (xs.getD i [])
      generateCore cfg oracle sqrtf noisef rngs bsFuel stepFuel xs ys (some inits') cmin cmax
  | none =>
    generateCore cfg oracle sqrtf noisef rngs bsFuel stepFuel xs ys none cmin cmax

/-! ## Spec-side definitions for the refinement claims -/

/-- Modelled from the spec's words (§4.4): `result(α) = (1-α)*original + α*current`
for L2; for L∞ the interpolation clips `current` into an `α`-radius box around
`original`. -/
def resultAt (orig cur : Sample) (alpha : ℚ) : NormT → Sample
  | .l2 => List.zipWith (fun o c => (1 - alpha) * o + alpha * c) orig cur
  | .linf => List.zipWith (fun o c => clipScalar (o - alpha) (o + alpha) c) orig cur

/-- Modelled from the spec's words (§4.4): bisect with `alpha = (lower+upper)/2`;
if `result(alpha)` is adversarial, `upper_bound = alpha`, else `lower_bound = alpha`;
stop when `upper - lower ≤ theta`; the final upper bound is returned. -/
def bisectSpec (advp : ℚ → Bool) (theta : ℚ) : ℕ → ℚ → ℚ → Option ℚ
  | 0, l, u => if u - l ≤ theta then some u else none
  | fuel + 1, l, u =>
    if u - l ≤ theta then some u
    else
      let alpha := (l + u) / 2
      if advp alpha then bisectSpec advp theta fuel l alpha
      else bisectSpec advp theta fuel alpha u

/-- Modelled from the spec's words (§4.4): for L2 the bounds start at `(0, 1)`
with threshold `theta`; for L∞ the upper bound starts at `max(|original - current|)`
and the threshold is `min(upper_bound * theta, theta)`; the search returns
`result(upper_bound)`. -/
def binarySearchSpec (cfg : Config) (oracle : Oracle) (fuel : ℕ) (cur orig : Sample)
    (target : ℕ) (norm : NormT) (cmin cmax : ℚ) : Option Sample :=
  let ub : ℚ := match norm with
    | .l2 => 1
    | .linf => linfDist orig cur
  let thr : ℚ := match norm with
    | .l2 => cfg.theta
    | .linf => min (ub * cfg.theta) cfg.theta
  (bisectSpec
      (fun a => adversarialSatisfactory cfg oracle target cmin cmax (resultAt orig cur a norm))
      thr fuel 0 ub).map
    (fun u => resultAt orig cur u norm)

/-! ## Concrete instances used by witnesses and counterexamples -/

/-- A 1-D oracle: class 1 iff the first coordinate is at least 1/2. -/
def oracleHalf : Oracle := fun s => if (1 : ℚ) / 2 ≤ s.headD 0 then 1 else 0

/-- A small untargeted norm-2 configuration. -/
def cfgBase : Config :=
  { targeted := false, norm := .l2, max_iter := 0, max_eval := 10, init_eval := 1,
    init_size := 1, theta := 1 / 100, numel := 1 }

/-- `cfgBase` with `targeted := true`. -/
def cfgTgt : Config :=
  { cfgBase with targeted := true }

theorem resultAt_eq_interpolate (orig cur : Sample) (alpha : ℚ) (norm : NormT) :
    resultAt orig cur alpha norm = interpolate cur orig alpha norm := by
  cases norm <;>
    · simp only [resultAt, interpolate]
      rw [List.zipWith_comm]

theorem binSearchLoop_eq_bisectSpec (advp : ℚ → Bool) (theta : ℚ) :
    ∀ fuel l u, binSearchLoop advp theta fuel l u = bisectSpec advp theta fuel l u := by
  intro fuel
  induction fuel with
  | zero =>
    intro l u
    by_cases h : u - l > theta
    · simp only [binSearchLoop, bisectSpec, if_pos h, if_neg (not_le.mpr h)]
    · simp only [binSearchLoop, bisectSpec, if_neg h, if_pos (not_lt.mp h)]
  | succ fuel ih =>
    intro l u
    by_cases h : u - l > theta
    · simp only [binSearchLoop, bisectSpec, if_pos h, if_neg (not_le.mpr h)]
      rw [add_comm u l]
      cases hs : advp ((l + u) / 2) <;> simp [hs, ih]
    · simp only [binSearchLoop, bisectSpec, if_neg h, if_pos (not_lt.mp h)]

/-- C2: with the default threshold, `_binary_search` is exactly the bisection
the spec describes: `alpha = (lower+upper)/2`, adversarial shrinks the upper
bound, otherwise the lower bound rises, the loop runs while
`upper - lower > threshold`, and the interpolation at the final upper bound is
returned; the bounds start at `(0, 1)` with threshold `theta` for norm 2, and
at `max(|original - current|)` with threshold `min(upper_bound*theta, theta)`
for norm ∞. -/
theorem binary_search_matches_spec (cfg : Config) (oracle : Oracle) (fuel : ℕ)
    (cur orig : Sample) (target : ℕ) (norm : NormT) (cmin cmax : ℚ) :
    binarySearch cfg oracle fuel cur orig target norm cmin cmax none =
      binarySearchSpec cfg oracle fuel cur orig target norm cmin cmax := by
  cases norm <;>
    simp only [binarySearch, binarySearchSpec, resultAt_eq_interpolate,
      binSearchLoop_eq_bisectSpec]

/-! ## The two draw loops of `_init_sample` -/

theorem initLoopUntargeted_eq_find (cfg : Config) (oracle : Oracle) (fuel : ℕ) (x : Sample)
    (y_p : ℕ) (mask : Option Sample) (cmin cmax : ℚ) :
    ∀ draws : List Sample,
      initLoopUntargeted cfg oracle fuel x y_p mask cmin cmax draws =
        (draws.find? fun d => decide (oracle (maskApply mask x d) ≠ y_p)).map
          (fun d =>
            (binarySearch cfg oracle fuel (maskApply mask x d) x y_p .l2 cmin cmax
                (some (1 / 1000)),
              y_p)) := by
  intro draws
  induction draws with
  | nil => rfl
  | cons d rest ih =>
    by_cases h : oracle (maskApply mask x d) = y_p
    · rw [List.find?_cons_of_neg _ (by simp [h])]
      simp only [initLoopUntargeted, h]
      simpa using ih
    · rw [List.find?_cons_of_pos _ (by simp [h])]
      simp [initLoopUntargeted, h]

theorem initLoopTargeted_eq_getLast (cfg : Config) (oracle : Oracle) (fuel : ℕ) (x : Sample)
    (y : ℕ) (mask : Option Sample) (cmin cmax : ℚ) :
    ∀ (draws : List Sample) (acc : Option (Option Sample × ℕ)),
      initLoopTargeted cfg oracle fuel x y mask cmin cmax draws acc =
        match (draws.filter fun d => decide (oracle (maskApply mask x d) = y)).getLast? with
        | some d =>
          some
            (binarySearch cfg oracle fuel (maskApply mask x d) x y .l2 cmin cmax (some (1 / 1000)),
              oracle (maskApply mask x d))
        | none => acc := by
  intro draws
  induction draws with
  | nil => intro acc; rfl
  | cons d rest ih =>
    intro acc
    by_cases h : oracle (maskApply mask x d) = y
    · simp only [initLoopTargeted, if_pos h]
      rw [ih, List.filter_cons, if_pos (by simp [h]), List.getLast?_cons]
      cases hl : (rest.filter fun d => decide (oracle (maskApply mask x d) = y)).getLast? <;>
        simp [hl]
    · simp only [initLoopTargeted, if_neg h]
      rw [ih, List.filter_cons, if_neg (by simp [h])]

/-- C5: the untargeted draw loop is first-hit — it returns the projection of
the first draw whose predicted class differs from `y_p` — while the targeted
draw loop never breaks, so only the last draw classifying as the target is
retained (the last element of the successful draws). -/
theorem init_sample_first_hit_vs_last_hit :
    (∀ (cfg : Config) (oracle : Oracle) (fuel : ℕ) (x : Sample) (y_p : ℕ)
        (mask : Option Sample) (cmin cmax : ℚ) (draws : List Sample),
      initLoopUntargeted cfg oracle fuel x y_p mask cmin cmax draws =
        (draws.find? fun d => decide (oracle (maskApply mask x d) ≠ y_p)).map
          (fun d =>
            (binarySearch cfg oracle fuel (maskApply mask x d) x y_p .l2 cmin cmax
                (some (1 / 1000)),
              y_p))) ∧
    (∀ (cfg : Config) (oracle : Oracle) (fuel : ℕ) (x : Sample) (y : ℕ)
        (mask : Option Sample) (cmin cmax : ℚ) (draws : List Sample),
      initLoopTargeted cfg oracle fuel x y mask cmin cmax draws none =
        match (draws.filter fun d => decide (oracle (maskApply mask x d) = y)).getLast? with
        | some d =>
          some
            (binarySearch cfg oracle fuel (maskApply mask x d) x y .l2 cmin cmax (some (1 / 1000)),
              oracle (maskApply mask x d))
        | none => none) :=
  ⟨fun cfg oracle fuel x y_p mask cmin cmax draws =>
      initLoopUntargeted_eq_find cfg oracle fuel x y_p mask cmin cmax draws,
    fun cfg oracle fuel x y mask cmin cmax draws =>
      initLoopTargeted_eq_getLast cfg oracle fuel x y mask cmin cmax draws none⟩

/-! ## The init projections ignore the configured norm and theta -/

theorem adversarialSatisfactory_congr {cfg cfg' : Config} (h : cfg.targeted = cfg'.targeted)
    (oracle : Oracle) (target : ℕ) (cmin cmax : ℚ) (s : Sample) :
    adversarialSatisfactory cfg oracle target cmin cmax s =
      adversarialSatisfactory cfg' oracle target cmin cmax s := by
  simp only [adversarialSatisfactory, h]

theorem binarySearch_congr {cfg cfg' : Config} (h : cfg.targeted = cfg'.targeted)
    (oracle : Oracle) (fuel : ℕ) (cur orig : Sample) (target : ℕ) (norm : NormT)
    (cmin cmax t : ℚ) :
    binarySearch cfg oracle fuel cur orig target norm cmin cmax (some t) =
      binarySearch cfg' oracle fuel cur orig target norm cmin cmax (some t) := by
  have hp :
      (fun a => adversarialSatisfactory cfg oracle target cmin cmax
        (interpolate cur orig a norm)) =
      (fun a => adversarialSatisfactory cfg' oracle target cmin cmax
        (interpolate cur orig a norm)) :=
    funext fun a => adversarialSatisfactory_congr h oracle target cmin cmax _
  simp only [binarySearch, hp]

theorem initLoopUntargeted_congr {cfg cfg' : Config} (h : cfg.targeted = cfg'.targeted)
    (oracle : Oracle) (fuel : ℕ) (x : Sample) (y_p : ℕ) (mask : Option Sample)
    (cmin cmax : ℚ) (draws : List Sample) :
    initLoopUntargeted cfg oracle fuel x y_p mask cmin cmax draws =
      initLoopUntargeted cfg' oracle fuel x y_p mask cmin cmax draws := by
  rw [initLoopUntargeted_eq_find, initLoopUntargeted_eq_find]
  congr 1
  funext d
  rw [binarySearch_congr h]

theorem initLoopTargeted_congr {cfg cfg' : Config} (h : cfg.targeted = cfg'.targeted)
    (oracle : Oracle) (fuel : ℕ) (x : Sample) (y : ℕ) (mask : Option Sample)
    (cmin cmax : ℚ) (draws : List Sample) (acc : Option (Option Sample × ℕ)) :
    initLoopTargeted cfg oracle fuel x y mask cmin cmax draws acc =
      initLoopTargeted cfg' oracle fuel x y mask cmin cmax draws acc := by
  rw [initLoopTargeted_eq_getLast, initLoopTargeted_eq_getLast]
  cases hl : (draws.filter fun d => decide (oracle (maskApply mask x d) = y)).getLast? <;>
    simp only []
  rw [binarySearch_congr h]

/-- C10: the projections of the Initial-Sample Finder ignore the configured
norm and theta.  First conjunct: two configurations agreeing on `targeted` and
`init_size` (but with arbitrary `norm` and `theta`) give identical
`_init_sample` results.  Second and third conjuncts: with no `adv_init`, the
successful draw is always projected by `_binary_search` with norm `2` and the
fixed threshold `0.001`, in both the untargeted and the targeted branch. -/
theorem init_sample_projection_fixed_norm2 :
    (∀ (cfg cfg' : Config) (oracle : Oracle) (fuel : ℕ) (x : Sample) (y y_p : ℕ)
        (init_pred : Option ℕ) (adv_init mask : Option Sample) (cmin cmax : ℚ)
        (rng : ℕ → Sample),
      cfg.targeted = cfg'.targeted → cfg.init_size = cfg'.init_size →
      initSample cfg oracle fuel x y y_p init_pred adv_init mask cmin cmax rng =
        initSample cfg' oracle fuel x y y_p init_pred adv_init mask cmin cmax rng) ∧
    (∀ (cfg : Config) (oracle : Oracle) (fuel : ℕ) (x : Sample) (y y_p : ℕ)
        (mask : Option Sample) (cmin cmax : ℚ) (rng : ℕ → Sample),
      cfg.targeted = false →
      initSample cfg oracle fuel x y y_p none none mask cmin cmax rng =
        (((List.range cfg.init_size).map rng).find?
            (fun d => decide (oracle (maskApply mask x d) ≠ y_p))).map
          (fun d =>
            (binarySearch cfg oracle fuel (maskApply mask x d) x y_p .l2 cmin cmax
                (some (1 / 1000)),
              y_p))) ∧
    (∀ (cfg : Config) (oracle : Oracle) (fuel : ℕ) (x : Sample) (y y_p : ℕ)
        (mask : Option Sample) (cmin cmax : ℚ) (rng : ℕ → Sample),
      cfg.targeted = true → y ≠ y_p →
      initSample cfg oracle fuel x y y_p none none mask cmin cmax rng =
        match (((List.range cfg.init_size).map rng).filter
            (fun d => decide (oracle (maskApply mask x d) = y))).getLast? with
        | some d =>
          some
            (binarySearch cfg oracle fuel (maskApply mask x d) x y .l2 cmin cmax (some (1 / 1000)),
              oracle (maskApply mask x d))
        | none => none) := by
  refine ⟨?_, ?_, ?_⟩
  · intro cfg cfg' oracle fuel x y y_p init_pred adv_init mask cmin cmax rng h1 h2
    by_cases ht : cfg'.targeted
    · simp only [initSample, h1, h2, ht, if_true]
      by_cases hy : y = y_p
      · simp [hy]
      · simp only [hy, if_false]
        cases advInitHitTargeted y adv_init init_pred
        · simpa using initLoopTargeted_congr h1 oracle fuel x y mask cmin cmax _ none
        · rfl
    · have ht' : cfg'.targeted = false := by simpa using ht
      simp only [initSample, h1, h2, ht', Bool.false_eq_true, if_false]
      cases advInitHitUntargeted y_p adv_init init_pred
      · simpa using initLoopUntargeted_congr h1 oracle fuel x y_p mask cmin cmax _
      · rfl
  · intro cfg oracle fuel x y y_p mask cmin cmax rng ht
    simp only [initSample, ht, Bool.false_eq_true, if_false, advInitHitUntargeted]
    exact initLoopUntargeted_eq_find cfg oracle fuel x y_p mask cmin cmax _
  · intro cfg oracle fuel x y y_p mask cmin cmax rng ht hy
    simp only [initSample, ht, if_true, hy, if_false, advInitHitTargeted]
    exact initLoopTargeted_eq_getLast cfg oracle fuel x y mask cmin cmax _ none

theorem init_sample_projection_fixed_norm2_witness :
    initSample cfgBase oracleHalf 10 [1 / 10] 0 0 none none none 0 1 (fun _ => [1]) =
      initSample { cfgBase with norm := .linf, theta := 7 } oracleHalf 10 [1 / 10] 0 0 none none
        none 0 1 (fun _ => [1]) :=
  init_sample_projection_fixed_norm2.1 cfgBase _ oracleHalf 10 [1 / 10] 0 0 none none none 0 1
    (fun _ => [1]) rfl rfl

/-! ## Initialization failure is a soft no-op -/

/-- C4: if `_init_sample` returns `None`, `_perturb` returns the original
sample `x` unchanged (no exception is modelled: the function is total on this
path); in particular a targeted attack whose target equals the oracle's
prediction on `x` returns `x` exactly. -/
theorem init_failure_returns_input_unchanged :
    (∀ (cfg : Config) (oracle : Oracle) (sqrtf : ℚ → ℚ) (noisef : ℕ → ℕ → Sample)
        (rng : ℕ → Sample) (bsFuel stepFuel : ℕ) (x : Sample) (y y_p : ℕ)
        (init_pred : Option ℕ) (adv_init mask : Option Sample) (cmin cmax : ℚ) (start : ℕ),
      initSample cfg oracle bsFuel x y y_p init_pred adv_init mask cmin cmax rng = none →
      perturb cfg oracle sqrtf noisef rng bsFuel stepFuel x y y_p init_pred adv_init mask
          cmin cmax start = some x) ∧
    (∀ (cfg : Config) (oracle : Oracle) (sqrtf : ℚ → ℚ) (noisef : ℕ → ℕ → Sample)
        (rng : ℕ → Sample) (bsFuel stepFuel : ℕ) (x : Sample) (y : ℕ)
        (adv_init : Option Sample) (cmin cmax : ℚ),
      cfg.targeted = true → y = oracle x →
      generateOne cfg oracle sqrtf noisef rng bsFuel stepFuel x y adv_init cmin cmax = some x) := by
  constructor
  · intro cfg oracle sqrtf noisef rng bsFuel stepFuel x y y_p init_pred adv_init mask cmin cmax
      start h
    simp only [perturb, h]
  · intro cfg oracle sqrtf noisef rng bsFuel stepFuel x y adv_init cmin cmax ht hy
    simp [generateOne, perturb, initSample, ht, hy]

theorem init_failure_returns_input_unchanged_witness :
    generateOne cfgTgt oracleHalf id (fun _ _ => [1]) (fun _ => [1]) 10 0 [1 / 10] 0 none 0 1 =
      some [1 / 10] :=
  init_failure_returns_input_unchanged.2 cfgTgt oracleHalf id (fun _ _ => [1]) (fun _ => [1])
    10 0 [1 / 10] 0 none 0 1 rfl (by norm_num [oracleHalf])

/-! ## The mask is dropped before the search; a missing mask with adv_init errors -/

/-- C3 (evidence of the defect): with mask `[1,0]` supplied to `generate` on
the 2-element input `[0,1]`, the final output is `[1/2, 1/2]`: its second
coordinate `1/2` differs from the original's second coordinate `1`, because
`generate` hardcodes `mask=None` in its calls to `_perturb`, so no stage of
the search sees the mask. -/
theorem mask_ignored_by_search :
    generateBatch cfgBase oracleHalf id (fun _ _ _ => [0, 0]) (fun _ _ => [1, 0]) 10 0
        [[0, 1]] none (some [[1, 0]]) none = .ok [some [1 / 2, 1 / 2]] ∧
      ¬((1 : ℚ) / 2 = 1) := by
  constructor
  · norm_num [generateBatch, generateCore, generateOne, perturb, initSample, initLoopUntargeted,
      advInitHitUntargeted, binarySearch, binSearchLoop, interpolate, adversarialSatisfactory,
      clipSample, clipScalar, oracleHalf, maskApply, batchMin, batchMax, attack, attackLoop,
      cfgBase, linfDist, List.range_succ]
  · norm_num

/-- C9: when initial adversarial examples are supplied to `generate` without a
mask, the unconditional `mask[i]` subscript hits the `None` mask and `generate`
fails with an error instead of treating the missing mask as all-ones. -/
theorem adv_init_without_mask_errors (cfg : Config) (oracle : Oracle) (sqrtf : ℚ → ℚ)
    (noisef : ℕ → ℕ → ℕ → Sample) (rngs : ℕ → ℕ → Sample) (bsFuel stepFuel : ℕ)
    (xs : List Sample) (ys : Option (List ℕ)) (inits : List Sample) :
    ∃ msg, generateBatch cfg oracle sqrtf noisef rngs bsFuel stepFuel xs ys none (some inits) =
      .error msg :=
  ⟨_, rfl⟩

/-! ## The three branches of `_compute_update` -/

/-- Helper sum with no typeclass arguments, to keep rewriting stable. -/
def qsum : List ℚ → ℚ
  | [] => 0
  | a :: rest => a + qsum rest

theorem qsum_eq_sum : ∀ l : List ℚ, qsum l = l.sum := by
  intro l
  induction l with
  | nil => rfl
  | cons a rest ih => simp [qsum, ih]

theorem qsum_ones_eq_length : ∀ l : List Bool, qsum (l.map fun _ => (1 : ℚ)) = (l.length : ℚ) := by
  intro l
  induction l with
  | nil => rfl
  | cons b rest ih =>
    simp only [List.map_cons, qsum, ih, List.length_cons]
    exact_mod_cast Nat.add_comm 1 rest.length

theorem qsum_ind_le_ones (l : List Bool) :
    qsum (l.map fun b => 2 * (if b then (1 : ℚ) else 0) - 1) ≤ qsum (l.map fun _ => (1 : ℚ)) := by
  induction l with
  | nil => norm_num [qsum]
  | cons b rest ih =>
    simp only [List.map_cons, qsum]
    refine add_le_add ?_ ih
    cases b <;> norm_num

theorem qsum_neg_ones_le_ind (l : List Bool) :
    -qsum (l.map fun _ => (1 : ℚ)) ≤ qsum (l.map fun b => 2 * (if b then (1 : ℚ) else 0) - 1) := by
  induction l with
  | nil => norm_num [qsum]
  | cons b rest ih =>
    simp only [List.map_cons, qsum]
    rw [neg_add]
    refine add_le_add ?_ ih
    cases b <;> norm_num

theorem qsum_ind_eq_ones_iff (l : List Bool) :
    qsum (l.map fun b => 2 * (if b then (1 : ℚ) else 0) - 1) = qsum (l.map fun _ => (1 : ℚ)) ↔
      ∀ b ∈ l, b = true := by
  induction l with
  | nil => simp
  | cons b rest ih =>
    have hle := qsum_ind_le_ones rest
    simp only [List.map_cons, qsum]
    generalize qsum (List.map (fun b => 2 * (if b then (1 : ℚ) else 0) - 1) rest) = A at ih hle ⊢
    generalize qsum (List.map (fun _ => (1 : ℚ)) rest) = B at ih hle ⊢
    cases b
    · simp only [Bool.false_eq_true, if_false]
      constructor
      · intro h
        norm_num at h
        exfalso
        linarith only [hle, h]
      · intro h
        exact absurd (h false (by simp)) (by simp)
    · simp only [if_true]
      rw [List.forall_mem_cons]
      constructor
      · intro h
        norm_num at h
        refine ⟨rfl, ih.mp ?_⟩
        linarith only [hle, h]
      · intro h
        rw [ih.mpr h.2]
        norm_num

theorem qsum_ind_eq_neg_ones_iff (l : List Bool) :
    qsum (l.map fun b => 2 * (if b then (1 : ℚ) else 0) - 1) = -qsum (l.map fun _ => (1 : ℚ)) ↔
      ∀ b ∈ l, b = false := by
  induction l with
  | nil => norm_num [qsum]
  | cons b rest ih =>
    have hle := qsum_neg_ones_le_ind rest
    simp only [List.map_cons, qsum]
    generalize qsum (List.map (fun b => 2 * (if b then (1 : ℚ) else 0) - 1) rest) = A at ih hle ⊢
    generalize qsum (List.map (fun _ => (1 : ℚ)) rest) = B at ih hle ⊢
    cases b
    · simp only [Bool.false_eq_true, if_false]
      rw [List.forall_mem_cons]
      constructor
      · intro h
        norm_num at h
        refine ⟨rfl, ih.mp ?_⟩
        linarith only [hle, h]
      · intro h
        rw [ih.mpr h.2]
        ring
    · simp only [if_true]
      constructor
      · intro h
        norm_num at h
        exfalso
        linarith only [hle, h]
      · intro h
        exact absurd (h true (by simp)) (by simp)

theorem indicator_mean_eq_one_iff (l : List Bool) (h : l ≠ []) :
    meanQ (l.map fun b => 2 * (if b then (1 : ℚ) else 0) - 1) = 1 ↔ ∀ b ∈ l, b = true := by
  have hl : ((l.length : ℚ)) ≠ 0 := by
    have hpos : 0 < l.length := List.length_pos.mpr h
    exact_mod_cast hpos.ne'
  unfold meanQ
  rw [← qsum_eq_sum, List.length_map, div_eq_one_iff_eq hl, ← qsum_ones_eq_length]
  exact qsum_ind_eq_ones_iff l

theorem indicator_mean_eq_neg_one_iff (l : List Bool) (h : l ≠ []) :
    meanQ (l.map fun b => 2 * (if b then (1 : ℚ) else 0) - 1) = -1 ↔ ∀ b ∈ l, b = false := by
  have hl : ((l.length : ℚ)) ≠ 0 := by
    have hpos : 0 < l.length := List.length_pos.mpr h
    exact_mod_cast hpos.ne'
  unfold meanQ
  rw [← qsum_eq_sum, List.length_map, div_eq_iff hl, neg_one_mul, ← qsum_ones_eq_length]
  exact qsum_ind_eq_neg_ones_iff l

theorem updateSatisfied_length (cfg : Config) (oracle : Oracle) (sqrtf : ℚ → ℚ) (cur : Sample)
    (num_eval : ℕ) (delta : ℚ) (target : ℕ) (mask : Option Sample) (cmin cmax : ℚ)
    (noisef : ℕ → Sample) :
    (updateSatisfied cfg oracle sqrtf cur num_eval delta target mask cmin cmax noisef).length =
      num_eval := by
  cases mask <;> simp [updateSatisfied, updateEvalSamples]

/-- C6: `_compute_update` maps the per-probe adversarial indicators to ±1 and
branches on their mean: all probes adversarial (mean 1) gives the mean of the
applied perturbations, none adversarial (mean -1) gives its negation, and the
mixed case centers the indicators by their mean and averages the weighted
perturbations; the result is the raw direction divided by its L2 norm for
norm 2 and its elementwise sign for norm ∞. -/
theorem compute_update_branches (cfg : Config) (oracle : Oracle) (sqrtf : ℚ → ℚ)
    (cur : Sample) (num_eval : ℕ) (delta : ℚ) (target : ℕ) (mask : Option Sample)
    (cmin cmax : ℚ) (noisef : ℕ → Sample) (hn : 1 ≤ num_eval) :
    ((∀ b ∈ updateSatisfied cfg oracle sqrtf cur num_eval delta target mask cmin cmax noisef,
        b = true) →
      computeUpdate cfg oracle sqrtf cur num_eval delta target mask cmin cmax noisef =
        normFinal cfg.norm sqrtf
          (meanVec (updatePerturbations cur num_eval delta mask cmin cmax noisef sqrtf))) ∧
    ((∀ b ∈ updateSatisfied cfg oracle sqrtf cur num_eval delta target mask cmin cmax noisef,
        b = false) →
      computeUpdate cfg oracle sqrtf cur num_eval delta target mask cmin cmax noisef =
        normFinal cfg.norm sqrtf
          (smul (-1)
            (meanVec (updatePerturbations cur num_eval delta mask cmin cmax noisef sqrtf)))) ∧
    ((∃ b ∈ updateSatisfied cfg oracle sqrtf cur num_eval delta target mask cmin cmax noisef,
        b = true) →
      (∃ b ∈ updateSatisfied cfg oracle sqrtf cur num_eval delta target mask cmin cmax noisef,
        b = false) →
      computeUpdate cfg oracle sqrtf cur num_eval delta target mask cmin cmax noisef =
        normFinal cfg.norm sqrtf
          (meanVec (List.zipWith
            (fun f p =>
              smul
                (f -
                  meanQ
                    ((updateSatisfied cfg oracle sqrtf cur num_eval delta target mask cmin cmax
                        noisef).map
                      (fun b => 2 * (if b then (1 : ℚ) else 0) - 1)))
                p)
            ((updateSatisfied cfg oracle sqrtf cur num_eval delta target mask cmin cmax
                noisef).map
              (fun b => 2 * (if b then (1 : ℚ) else 0) - 1))
            (updatePerturbations cur num_eval delta mask cmin cmax noisef sqrtf)))) ∧
    (∀ g : Sample, normFinal .l2 sqrtf g = g.map (fun v => v / sqrtf (sumSq g))) ∧
    (∀ g : Sample, normFinal .linf sqrtf g = g.map signQ) := by
  have hlen := updateSatisfied_length cfg oracle sqrtf cur num_eval delta target mask cmin cmax
    noisef
  have hne : updateSatisfied cfg oracle sqrtf cur num_eval delta target mask cmin cmax
      noisef ≠ [] := by
    intro h0
    rw [h0] at hlen
    simp at hlen
    omega
  refine ⟨?_, ?_, ?_, fun g => rfl, fun g => rfl⟩
  · intro hall
    have hm := (indicator_mean_eq_one_iff _ hne).mpr hall
    simp only [computeUpdate]
    rw [if_pos hm]
  · intro hall
    have hm := (indicator_mean_eq_neg_one_iff _ hne).mpr hall
    have hm1 : ¬(meanQ
        ((updateSatisfied cfg oracle sqrtf cur num_eval delta target mask cmin cmax noisef).map
          (fun b => 2 * (if b then (1 : ℚ) else 0) - 1)) = 1) := by
      intro h1
      obtain ⟨b, hb⟩ := List.exists_mem_of_ne_nil _ hne
      have ht := (indicator_mean_eq_one_iff _ hne).mp h1 b hb
      have hf := hall b hb
      rw [ht] at hf
      exact Bool.noConfusion hf
    simp only [computeUpdate]
    rw [if_neg hm1, if_pos hm]
  · intro hex1 hex0
    obtain ⟨bt, hbt, hbt'⟩ := hex1
    obtain ⟨bf, hbf, hbf'⟩ := hex0
    have hm1 : ¬(meanQ
        ((updateSatisfied cfg oracle sqrtf cur num_eval delta target mask cmin cmax noisef).map
          (fun b => 2 * (if b then (1 : ℚ) else 0) - 1)) = 1) := by
      intro h1
      have ht := (indicator_mean_eq_one_iff _ hne).mp h1 bf hbf
      rw [hbf'] at ht
      exact Bool.noConfusion ht
    have hm2 : ¬(meanQ
        ((updateSatisfied cfg oracle sqrtf cur num_eval delta target mask cmin cmax noisef).map
          (fun b => 2 * (if b then (1 : ℚ) else 0) - 1)) = -1) := by
      intro h1
      have ht := (indicator_mean_eq_neg_one_iff _ hne).mp h1 bt hbt
      rw [hbt'] at ht
      exact Bool.noConfusion ht
    simp only [computeUpdate]
    rw [if_neg hm1, if_neg hm2]

theorem compute_update_branches_witness :
    computeUpdate cfgBase oracleHalf id [0] 1 1 0 none 0 1 (fun _ => [1]) =
      normFinal cfgBase.norm id
        (meanVec (updatePerturbations [0] 1 1 none 0 1 (fun _ => [1]) id)) :=
  (compute_update_branches cfgBase oracleHalf id [0] 1 1 0 none 0 1 (fun _ => [1])
      (by norm_num)).1
    (by norm_num [updateSatisfied, updateEvalSamples, adversarialSatisfactory, clipSample,
      clipScalar, oracleHalf, sumSq, vadd, smul, cfgBase, List.range_succ])

/-! ## The step-size halving loop -/

theorem stepSizeSearch_some_spec (advp : Sample → Bool) :
    ∀ (fuel : ℕ) (eps : ℚ) (cur upd pot : Sample),
      stepSizeSearch advp fuel eps cur upd = some pot →
      ∃ j, j + 1 ≤ fuel ∧ pot = vadd cur (smul (eps / 2 ^ (j + 1)) upd) ∧ advp pot = true ∧
        ∀ j' < j, advp (vadd cur (smul (eps / 2 ^ (j' + 1)) upd)) = false := by
  intro fuel
  induction fuel with
  | zero => intro eps cur upd pot h; exact Option.noConfusion h
  | succ f ih =>
    intro eps cur upd pot h
    simp only [stepSizeSearch] at h
    cases hadv : advp (vadd cur (smul (eps / 2) upd))
    · rw [if_neg (by rw [hadv]; exact Bool.false_ne_true)] at h
      obtain ⟨j, hj, hpot, hsat, hmin⟩ := ih (eps / 2) cur upd pot h
      have hpow : ∀ i : ℕ, eps / 2 / 2 ^ (i + 1) = eps / 2 ^ (i + 1 + 1) := by
        intro i
        rw [div_div, ← pow_succ']
      refine ⟨j + 1, by omega, ?_, hsat, ?_⟩
      · rw [hpot, hpow j]
      · intro j' hj'
        cases j' with
        | zero => rw [pow_one]; exact hadv
        | succ i =>
          have := hmin i (by omega)
          rw [hpow i] at this
          exact this
    · rw [if_pos (by rw [hadv])] at h
      refine ⟨0, by omega, ?_, ?_, by omega⟩
      · rw [← Option.some_inj.mp h, pow_one]
      · rw [← Option.some_inj.mp h, hadv]

theorem stepSizeSearch_none_of_false (advp : Sample → Bool) (hfalse : ∀ s, advp s = false) :
    ∀ (fuel : ℕ) (eps : ℚ) (cur upd : Sample), stepSizeSearch advp fuel eps cur upd = none := by
  intro fuel
  induction fuel with
  | zero => intro eps cur upd; rfl
  | succ f ih =>
    intro eps cur upd
    simp only [stepSizeSearch]
    rw [if_neg (by rw [hfalse]; exact Bool.false_ne_true)]
    exact ih (eps / 2) cur upd

/-- C7: the step-size search halves epsilon before each test (the candidate
after `j+1` halvings is `current + (epsilon/2^(j+1))·update`), stops at the
first success, and has no bound on the halvings: under an oracle whose
adversarial predicate rejects every sample, it exhausts every fuel (`none` for
all fuel — the concrete loop never terminates), and so does any driver
iteration containing it. -/
theorem step_size_search_first_hit_and_unbounded :
    (∀ (advp : Sample → Bool) (fuel : ℕ) (eps : ℚ) (cur upd pot : Sample),
      stepSizeSearch advp fuel eps cur upd = some pot →
      ∃ j, j + 1 ≤ fuel ∧ pot = vadd cur (smul (eps / 2 ^ (j + 1)) upd) ∧ advp pot = true ∧
        ∀ j' < j, advp (vadd cur (smul (eps / 2 ^ (j' + 1)) upd)) = false) ∧
    (∀ advp : Sample → Bool, (∀ s, advp s = false) →
      ∀ (fuel : ℕ) (eps : ℚ) (cur upd : Sample), stepSizeSearch advp fuel eps cur upd = none) ∧
    (∀ (cfg : Config) (oracle : Oracle) (sqrtf : ℚ → ℚ) (noisef : ℕ → ℕ → Sample)
        (bsFuel stepFuel : ℕ) (orig : Sample) (target : ℕ) (mask : Option Sample)
        (cmin cmax : ℚ),
      (∀ s, adversarialSatisfactory cfg oracle target cmin cmax s = false) →
      ∀ (k it : ℕ) (cur : Sample),
        attackLoop cfg oracle sqrtf noisef bsFuel stepFuel orig target mask cmin cmax
          (k + 1) it cur = none) := by
  refine ⟨fun advp fuel => stepSizeSearch_some_spec advp fuel, ?_, ?_⟩
  · exact fun advp h fuel => stepSizeSearch_none_of_false advp h fuel
  · intro cfg oracle sqrtf noisef bsFuel stepFuel orig target mask cmin cmax hfalse k it cur
    simp only [attackLoop]
    cases hbs : binarySearch cfg oracle bsFuel cur orig target cfg.norm cmin cmax none
    · rfl
    · simp only [stepSizeSearch_none_of_false
        (fun s => adversarialSatisfactory cfg oracle target cmin cmax s) (fun s => hfalse s)]

theorem step_size_search_first_hit_and_unbounded_witness :
    attackLoop cfgBase (fun _ => 0) id (fun _ _ => [1]) 10 5 [0] 0 none 0 1 1 0 [1] = none :=
  step_size_search_first_hit_and_unbounded.2.2 cfgBase (fun _ => 0) id (fun _ _ => [1]) 10 5
    [0] 0 none 0 1 (fun s => by simp [adversarialSatisfactory, cfgBase]) 0 0 [1]

/-! ## Clipping and interpolation lemmas -/

theorem clipScalar_idem (lo hi v : ℚ) : clipScalar lo hi (clipScalar lo hi v) = clipScalar lo hi v := by
  simp only [clipScalar, min_def, max_def]
  split_ifs <;> linarith

theorem clipScalar_mem (lo hi v : ℚ) (h : lo ≤ hi) :
    lo ≤ clipScalar lo hi v ∧ clipScalar lo hi v ≤ hi := by
  constructor
  · exact le_min (le_max_right v lo) h
  · exact min_le_right _ hi

theorem clipScalar_eq_self (lo hi v : ℚ) (h1 : lo ≤ v) (h2 : v ≤ hi) :
    clipScalar lo hi v = v := by
  simp only [clipScalar]
  rw [max_eq_left h1, min_eq_left h2]

theorem clipSample_idem (lo hi : ℚ) (s : Sample) :
    clipSample lo hi (clipSample lo hi s) = clipSample lo hi s := by
  induction s with
  | nil => rfl
  | cons v rest ih =>
    simp only [clipSample, List.map_cons] at ih ⊢
    rw [clipScalar_idem]
    exact congrArg (_ :: ·) ih

theorem clipSample_mem (lo hi : ℚ) (s : Sample) (h : lo ≤ hi) :
    ∀ v ∈ clipSample lo hi s, lo ≤ v ∧ v ≤ hi := by
  intro v hv
  simp only [clipSample, List.mem_map] at hv
  obtain ⟨w, _, rfl⟩ := hv
  exact clipScalar_mem lo hi w h

theorem clipSample_eq_self (lo hi : ℚ) (s : Sample) (h : ∀ v ∈ s, lo ≤ v ∧ v ≤ hi) :
    clipSample lo hi s = s := by
  induction s with
  | nil => rfl
  | cons v rest ih =>
    simp only [clipSample, List.map_cons]
    rw [clipScalar_eq_self lo hi v (h v (by simp)).1 (h v (by simp)).2]
    exact congrArg (v :: ·) (ih fun w hw => h w (by simp [hw]))

/-- The predicate `_adversarial_satisfactory` checks, with the clipping
stripped: the oracle's class on the raw sample against the target. -/
def advRaw (cfg : Config) (oracle : Oracle) (target : ℕ) (s : Sample) : Bool :=
  if cfg.targeted then decide (oracle s = target) else decide (oracle s ≠ target)

theorem adversarialSatisfactory_eq_advRaw_clip (cfg : Config) (oracle : Oracle) (target : ℕ)
    (cmin cmax : ℚ) (s : Sample) :
    adversarialSatisfactory cfg oracle target cmin cmax s =
      advRaw cfg oracle target (clipSample cmin cmax s) := rfl

theorem adversarialSatisfactory_of_mem (cfg : Config) (oracle : Oracle) (target : ℕ)
    (cmin cmax : ℚ) (s : Sample) (h : ∀ v ∈ s, cmin ≤ v ∧ v ≤ cmax) :
    adversarialSatisfactory cfg oracle target cmin cmax s = advRaw cfg oracle target s := by
  rw [adversarialSatisfactory_eq_advRaw_clip, clipSample_eq_self cmin cmax s h]

theorem interpolate_one_l2 :
    ∀ cur orig : Sample, cur.length = orig.length → interpolate cur orig 1 .l2 = cur := by
  intro cur
  induction cur with
  | nil => intro orig h; rfl
  | cons c cs ih =>
    intro orig h
    cases orig with
    | nil => simp at h
    | cons o os =>
      have ht := ih os (by simpa using h)
      simp only [interpolate] at ht ⊢
      rw [List.zipWith_cons_cons, ht]
      congr 1
      ring

theorem foldr_max_nonneg (l : List ℚ) : 0 ≤ l.foldr max 0 := by
  induction l with
  | nil => exact le_refl 0
  | cons v rest ih => exact le_trans ih (le_max_right v _)

theorem foldr_max_bound (l : List ℚ) : ∀ x ∈ l, x ≤ l.foldr max 0 := by
  induction l with
  | nil => intro x hx; exact absurd hx (List.not_mem_nil x)
  | cons v rest ih =>
    intro x hx
    rcases List.mem_cons.mp hx with h | h
    · rw [h]; exact le_max_left v _
    · exact le_trans (ih x h) (le_max_right v _)

theorem zipWith_clip_box_eq_self :
    ∀ (cur orig : Sample) (D : ℚ), cur.length = orig.length →
      (∀ v ∈ List.zipWith (fun o c => |o - c|) orig cur, v ≤ D) →
      List.zipWith (fun c o => clipScalar (o - D) (o + D) c) cur orig = cur := by
  intro cur
  induction cur with
  | nil => intro orig D h hb; cases orig <;> rfl
  | cons c cs ih =>
    intro orig D h hb
    cases orig with
    | nil => simp at h
    | cons o os =>
      rw [List.zipWith_cons_cons]
      have habs : |o - c| ≤ D := hb _ (by rw [List.zipWith_cons_cons]; exact List.mem_cons_self _ _)
      obtain ⟨hlow, hhigh⟩ := abs_le.mp habs
      have hc1 : o - D ≤ c := by linarith
      have hc2 : c ≤ o + D := by linarith
      rw [clipScalar_eq_self _ _ _ hc1 hc2]
      refine congrArg (c :: ·) (ih os D (by simpa using h) ?_)
      intro v hv
      exact hb v (by rw [List.zipWith_cons_cons]; exact List.mem_cons_of_mem _ hv)

theorem interpolate_linfDist_eq_self (cur orig : Sample) (h : cur.length = orig.length) :
    interpolate cur orig (linfDist orig cur) .linf = cur := by
  simp only [interpolate, linfDist]
  exact zipWith_clip_box_eq_self cur orig _ h (foldr_max_bound _)

theorem interpolate_l2_mem :
    ∀ (cur orig : Sample) (alpha lo hi : ℚ), 0 ≤ alpha → alpha ≤ 1 →
      (∀ v ∈ cur, lo ≤ v ∧ v ≤ hi) → (∀ v ∈ orig, lo ≤ v ∧ v ≤ hi) →
      ∀ v ∈ interpolate cur orig alpha .l2, lo ≤ v ∧ v ≤ hi := by
  intro cur
  induction cur with
  | nil => intro orig alpha lo hi _ _ _ _ v hv; simp [interpolate] at hv
  | cons c cs ih =>
    intro orig alpha lo hi h0 h1 hc ho v hv
    cases orig with
    | nil => simp [interpolate] at hv
    | cons o os =>
      simp only [interpolate, List.zipWith_cons_cons, List.mem_cons] at hv
      rcases hv with hv | hv
      · obtain ⟨hcl, hcu⟩ := hc c (by simp)
        obtain ⟨hol, hou⟩ := ho o (by simp)
        have ha1 : (0 : ℚ) ≤ 1 - alpha := by linarith
        constructor
        · have g1 : (1 - alpha) * lo ≤ (1 - alpha) * o := mul_le_mul_of_nonneg_left hol ha1
          have g2 : alpha * lo ≤ alpha * c := mul_le_mul_of_nonneg_left hcl h0
          calc lo = (1 - alpha) * lo + alpha * lo := by ring
            _ ≤ (1 - alpha) * o + alpha * c := add_le_add g1 g2
            _ = v := by rw [hv]
        · have g1 : (1 - alpha) * o ≤ (1 - alpha) * hi := mul_le_mul_of_nonneg_left hou ha1
          have g2 : alpha * c ≤ alpha * hi := mul_le_mul_of_nonneg_left hcu h0
          calc v = (1 - alpha) * o + alpha * c := by rw [hv]
            _ ≤ (1 - alpha) * hi + alpha * hi := add_le_add g1 g2
            _ = hi := by ring
      · exact ih os alpha lo hi h0 h1 (fun w hw => hc w (by simp [hw]))
          (fun w hw => ho w (by simp [hw])) v hv

theorem interpolate_linf_mem :
    ∀ (cur orig : Sample) (alpha lo hi : ℚ), 0 ≤ alpha →
      (∀ v ∈ cur, lo ≤ v ∧ v ≤ hi) → (∀ v ∈ orig, lo ≤ v ∧ v ≤ hi) →
      ∀ v ∈ interpolate cur orig alpha .linf, lo ≤ v ∧ v ≤ hi := by
  intro cur
  induction cur with
  | nil => intro orig alpha lo hi _ _ _ v hv; simp [interpolate] at hv
  | cons c cs ih =>
    intro orig alpha lo hi h0 hc ho v hv
    cases orig with
    | nil => simp [interpolate] at hv
    | cons o os =>
      simp only [interpolate, List.zipWith_cons_cons, List.mem_cons] at hv
      rcases hv with hv | hv
      · obtain ⟨hcl, hcu⟩ := hc c (by simp)
        obtain ⟨hol, hou⟩ := ho o (by simp)
        rw [hv]
        constructor
        · exact le_min (le_trans hcl (le_max_left c (o - alpha))) (by linarith)
        · exact le_trans (min_le_left _ _) (max_le hcu (by linarith))
      · exact ih os alpha lo hi h0 (fun w hw => hc w (by simp [hw]))
          (fun w hw => ho w (by simp [hw])) v hv

/-! ## Invariants of the bisection and the driver loop -/

theorem binSearchLoop_adv (advp : ℚ → Bool) (threshold : ℚ) :
    ∀ (fuel : ℕ) (l u u' : ℚ), advp u = true →
      binSearchLoop advp threshold fuel l u = some u' → advp u' = true := by
  intro fuel
  induction fuel with
  | zero =>
    intro l u u' hu h
    simp only [binSearchLoop] at h
    by_cases hc : u - l > threshold
    · rw [if_pos hc] at h
      exact Option.noConfusion h
    · rw [if_neg hc] at h
      rw [← Option.some_inj.mp h]
      exact hu
  | succ f ih =>
    intro l u u' hu h
    simp only [binSearchLoop] at h
    by_cases hc : u - l > threshold
    · rw [if_pos hc] at h
      cases hs : advp ((u + l) / 2) <;> rw [hs] at h <;> simp at h
      · exact ih _ _ _ hu h
      · exact ih _ _ _ hs h
    · rw [if_neg hc] at h
      rw [← Option.some_inj.mp h]
      exact hu

theorem binSearchLoop_bounds (advp : ℚ → Bool) (threshold : ℚ) :
    ∀ (fuel : ℕ) (l u u' : ℚ), l ≤ u →
      binSearchLoop advp threshold fuel l u = some u' → l ≤ u' ∧ u' ≤ u := by
  intro fuel
  induction fuel with
  | zero =>
    intro l u u' hlu h
    simp only [binSearchLoop] at h
    by_cases hc : u - l > threshold
    · rw [if_pos hc] at h
      exact Option.noConfusion h
    · rw [if_neg hc] at h
      rw [← Option.some_inj.mp h]
      exact ⟨hlu, le_refl u⟩
  | succ f ih =>
    intro l u u' hlu h
    simp only [binSearchLoop] at h
    by_cases hc : u - l > threshold
    · rw [if_pos hc] at h
      cases hs : advp ((u + l) / 2) <;> rw [hs] at h <;> simp at h
      · obtain ⟨h1, h2⟩ := ih _ _ _ (by linarith) h
        constructor
        · linarith
        · exact h2
      · obtain ⟨h1, h2⟩ := ih _ _ _ (by linarith) h
        constructor
        · exact h1
        · linarith
    · rw [if_neg hc] at h
      rw [← Option.some_inj.mp h]
      exact ⟨hlu, le_refl u⟩

theorem binarySearch_some_adv (cfg : Config) (oracle : Oracle) (fuel : ℕ) (cur orig : Sample)
    (target : ℕ) (norm : NormT) (cmin cmax : ℚ) (thr : Option ℚ) (res : Sample)
    (hlen : cur.length = orig.length)
    (hadv : adversarialSatisfactory cfg oracle target cmin cmax cur = true)
    (h : binarySearch cfg oracle fuel cur orig target norm cmin cmax thr = some res) :
    adversarialSatisfactory cfg oracle target cmin cmax res = true := by
  cases norm
  case l2 =>
    simp only [binarySearch] at h
    obtain ⟨u, hu, hres⟩ := Option.map_eq_some'.mp h
    have hstart : adversarialSatisfactory cfg oracle target cmin cmax
        (interpolate cur orig 1 .l2) = true := by
      rw [interpolate_one_l2 cur orig hlen]
      exact hadv
    have := binSearchLoop_adv _ _ fuel 0 1 u hstart hu
    rw [← hres]
    exact this
  case linf =>
    simp only [binarySearch] at h
    obtain ⟨u, hu, hres⟩ := Option.map_eq_some'.mp h
    have hstart : adversarialSatisfactory cfg oracle target cmin cmax
        (interpolate cur orig (linfDist orig cur) .linf) = true := by
      rw [interpolate_linfDist_eq_self cur orig hlen]
      exact hadv
    have := binSearchLoop_adv _ _ fuel 0 (linfDist orig cur) u hstart hu
    rw [← hres]
    exact this

theorem binarySearch_some_mem (cfg : Config) (oracle : Oracle) (fuel : ℕ) (cur orig : Sample)
    (target : ℕ) (norm : NormT) (cmin cmax : ℚ) (thr : Option ℚ) (res : Sample)
    (hc : ∀ v ∈ cur, cmin ≤ v ∧ v ≤ cmax) (ho : ∀ v ∈ orig, cmin ≤ v ∧ v ≤ cmax)
    (h : binarySearch cfg oracle fuel cur orig target norm cmin cmax thr = some res) :
    ∀ v ∈ res, cmin ≤ v ∧ v ≤ cmax := by
  cases norm
  case l2 =>
    simp only [binarySearch] at h
    obtain ⟨u, hu, hres⟩ := Option.map_eq_some'.mp h
    obtain ⟨h0, h1⟩ := binSearchLoop_bounds _ _ fuel 0 1 u (by norm_num) hu
    rw [← hres]
    exact interpolate_l2_mem cur orig u cmin cmax h0 h1 hc ho
  case linf =>
    simp only [binarySearch] at h
    obtain ⟨u, hu, hres⟩ := Option.map_eq_some'.mp h
    obtain ⟨h0, h1⟩ := binSearchLoop_bounds _ _ fuel 0 (linfDist orig cur) u
      (foldr_max_nonneg _) hu
    rw [← hres]
    exact interpolate_linf_mem cur orig u cmin cmax h0 hc ho

theorem stepSizeSearch_some_adv (advp : Sample → Bool) (fuel : ℕ) (eps : ℚ)
    (cur upd pot : Sample) (h : stepSizeSearch advp fuel eps cur upd = some pot) :
    advp pot = true := by
  obtain ⟨j, _, _, hsat, _⟩ := stepSizeSearch_some_spec advp fuel eps cur upd pot h
  exact hsat

theorem attackLoop_succ_advRaw (cfg : Config) (oracle : Oracle) (sqrtf : ℚ → ℚ)
    (noisef : ℕ → ℕ → Sample) (bsFuel stepFuel : ℕ) (orig : Sample) (target : ℕ)
    (mask : Option Sample) (cmin cmax : ℚ) :
    ∀ (k it : ℕ) (cur out : Sample),
      attackLoop cfg oracle sqrtf noisef bsFuel stepFuel orig target mask cmin cmax (k + 1) it
        cur = some out →
      advRaw cfg oracle target out = true := by
  intro k
  induction k with
  | zero =>
    intro it cur out h
    simp only [attackLoop] at h
    split at h
    · exact Option.noConfusion h
    · split at h
      · exact Option.noConfusion h
      · next pot hss =>
        have h' : some (clipSample cmin cmax pot) = some out := h
        rw [← Option.some_inj.mp h', ← adversarialSatisfactory_eq_advRaw_clip]
        exact stepSizeSearch_some_adv _ _ _ _ _ _ hss
  | succ k ih =>
    intro it cur out h
    simp only [attackLoop] at h
    split at h
    · exact Option.noConfusion h
    · split at h
      · exact Option.noConfusion h
      · exact ih _ _ _ h

theorem attackLoop_mem (cfg : Config) (oracle : Oracle) (sqrtf : ℚ → ℚ)
    (noisef : ℕ → ℕ → Sample) (bsFuel stepFuel : ℕ) (orig : Sample) (target : ℕ)
    (mask : Option Sample) (cmin cmax : ℚ) (hle : cmin ≤ cmax) :
    ∀ (k it : ℕ) (cur out : Sample), (∀ v ∈ cur, cmin ≤ v ∧ v ≤ cmax) →
      attackLoop cfg oracle sqrtf noisef bsFuel stepFuel orig target mask cmin cmax k it cur =
        some out →
      ∀ v ∈ out, cmin ≤ v ∧ v ≤ cmax := by
  intro k
  induction k with
  | zero =>
    intro it cur out hcur h
    simp only [attackLoop] at h
    rw [← Option.some_inj.mp h]
    exact hcur
  | succ k ih =>
    intro it cur out hcur h
    simp only [attackLoop] at h
    split at h
    · exact Option.noConfusion h
    · split at h
      · exact Option.noConfusion h
      · exact ih _ _ _ (clipSample_mem _ _ _ hle) h

/-! ## What a successful `_init_sample` returns -/

theorem mem_of_getLast?_eq_some {α : Type} {l : List α} {a : α} (h : l.getLast? = some a) :
    a ∈ l := by
  cases l with
  | nil => exact Option.noConfusion h
  | cons b rest =>
    rw [List.getLast?_eq_getLast_of_ne_nil (List.cons_ne_nil b rest)] at h
    rw [← Option.some_inj.mp h]
    exact List.getLast_mem _

theorem advInitHitTargeted_some_spec (y : ℕ) (ai : Option Sample) (ip : Option ℕ)
    (initial : Sample) (lbl : ℕ)
    (h : advInitHitTargeted y ai ip = some (some initial, lbl)) :
    ai = some initial ∧ ip = some y ∧ lbl = y := by
  cases ai with
  | none => exact Option.noConfusion h
  | some a =>
    cases ip with
    | none => exact Option.noConfusion h
    | some i =>
      simp only [advInitHitTargeted] at h
      by_cases hi : i = y
      · rw [if_pos hi] at h
        obtain ⟨h1, h2⟩ := Prod.mk.injEq .. ▸ Option.some_inj.mp h
        refine ⟨by rw [Option.some_inj.mp h1], by rw [hi], ?_⟩
        rw [← h2, hi]
      · rw [if_neg hi] at h
        exact Option.noConfusion h

theorem advInitHitUntargeted_some_spec (y_p : ℕ) (ai : Option Sample) (ip : Option ℕ)
    (initial : Sample) (lbl : ℕ)
    (h : advInitHitUntargeted y_p ai ip = some (some initial, lbl)) :
    ai = some initial ∧ ip ≠ some y_p ∧ lbl = y_p := by
  cases ai with
  | none => exact Option.noConfusion h
  | some a =>
    cases ip with
    | none =>
      simp only [advInitHitUntargeted] at h
      obtain ⟨h1, h2⟩ := Prod.mk.injEq .. ▸ Option.some_inj.mp h
      exact ⟨by rw [Option.some_inj.mp h1], by simp, h2.symm⟩
    | some i =>
      simp only [advInitHitUntargeted] at h
      by_cases hi : i = y_p
      · rw [if_neg (by simp [hi])] at h
        exact Option.noConfusion h
      · rw [if_pos hi] at h
        obtain ⟨h1, h2⟩ := Prod.mk.injEq .. ▸ Option.some_inj.mp h
        exact ⟨by rw [Option.some_inj.mp h1], by simpa using hi, h2.symm⟩

theorem initSample_some_spec (cfg : Config) (oracle : Oracle) (fuel : ℕ) (x : Sample)
    (y y_p : ℕ) (init_pred : Option ℕ) (adv_init mask : Option Sample) (cmin cmax : ℚ)
    (rng : ℕ → Sample) (initial : Sample) (lbl : ℕ)
    (h : initSample cfg oracle fuel x y y_p init_pred adv_init mask cmin cmax rng =
      some (some initial, lbl)) :
    ((cfg.targeted = true ∧ lbl = y) ∨ (cfg.targeted = false ∧ lbl = y_p)) ∧
    ((adv_init = some initial ∧
        ((cfg.targeted = true ∧ init_pred = some y) ∨
          (cfg.targeted = false ∧ init_pred ≠ some y_p))) ∨
      (∃ d ∈ (List.range cfg.init_size).map rng,
        ((cfg.targeted = true ∧ oracle (maskApply mask x d) = y) ∨
          (cfg.targeted = false ∧ oracle (maskApply mask x d) ≠ y_p)) ∧
        some initial =
          binarySearch cfg oracle fuel (maskApply mask x d) x lbl .l2 cmin cmax
            (some (1 / 1000)))) := by
  by_cases ht : cfg.targeted = true
  · simp only [initSample, ht, if_true] at h
    by_cases hy : y = y_p
    · rw [if_pos hy] at h
      exact Option.noConfusion h
    · rw [if_neg hy] at h
      cases hai : advInitHitTargeted y adv_init init_pred <;> rw [hai] at h
      case neg.some r =>
        rw [Option.some_inj.mp h] at hai
        obtain ⟨ha, hi, hl⟩ := advInitHitTargeted_some_spec y adv_init init_pred initial lbl hai
        exact ⟨Or.inl ⟨ht, hl⟩, Or.inl ⟨ha, Or.inl ⟨ht, hi⟩⟩⟩
      case neg.none =>
        rw [initLoopTargeted_eq_getLast] at h
        cases hlast : (((List.range cfg.init_size).map rng).filter
            (fun d => decide (oracle (maskApply mask x d) = y))).getLast? <;> rw [hlast] at h
        · exact Option.noConfusion h
        · rename_i d
          simp only [Option.some_inj, Prod.mk.injEq] at h
          have hmemf := mem_of_getLast?_eq_some hlast
          have hmem := List.mem_of_mem_filter hmemf
          have hp : oracle (maskApply mask x d) = y := by
            simpa using List.of_mem_filter hmemf
          have hl : lbl = y := by rw [← h.2, hp]
          refine ⟨Or.inl ⟨ht, hl⟩, Or.inr ⟨d, hmem, Or.inl ⟨ht, hp⟩, ?_⟩⟩
          rw [← h.1, hl]
  · have ht' : cfg.targeted = false := by simpa using ht
    simp only [initSample, ht', Bool.false_eq_true, if_false] at h
    cases hai : advInitHitUntargeted y_p adv_init init_pred <;> rw [hai] at h
    case neg.some r =>
      rw [Option.some_inj.mp h] at hai
      obtain ⟨ha, hi, hl⟩ := advInitHitUntargeted_some_spec y_p adv_init init_pred initial lbl hai
      exact ⟨Or.inr ⟨ht', hl⟩, Or.inl ⟨ha, Or.inr ⟨ht', hi⟩⟩⟩
    case neg.none =>
      rw [initLoopUntargeted_eq_find] at h
      obtain ⟨d, hfind, hf⟩ := Option.map_eq_some'.mp h
      have hp : oracle (maskApply mask x d) ≠ y_p := by
        simpa using List.find?_some hfind
      have hmem := List.mem_of_find?_eq_some hfind
      simp only [Prod.mk.injEq] at hf
      have hl : lbl = y_p := hf.2.symm
      refine ⟨Or.inr ⟨ht', hl⟩, Or.inr ⟨d, hmem, Or.inr ⟨ht', hp⟩, ?_⟩⟩
      rw [← hf.1, hl]

theorem attack_some_advRaw (cfg : Config) (oracle : Oracle) (sqrtf : ℚ → ℚ)
    (noisef : ℕ → ℕ → Sample) (bsFuel stepFuel : ℕ) (initial orig : Sample) (target : ℕ)
    (mask : Option Sample) (cmin cmax : ℚ) (start : ℕ) (out : Sample)
    (hkey : advRaw cfg oracle target initial = true)
    (h : attack cfg oracle sqrtf noisef bsFuel stepFuel initial orig target mask cmin cmax
      start = some out) :
    advRaw cfg oracle target out = true := by
  unfold attack at h
  cases hmi : cfg.max_iter with
  | zero =>
    rw [hmi] at h
    have h' : some initial = some out := h
    rw [← Option.some_inj.mp h']
    exact hkey
  | succ k =>
    rw [hmi] at h
    exact attackLoop_succ_advRaw cfg oracle sqrtf noisef bsFuel stepFuel orig target mask
      cmin cmax k start initial out h

/-- C1: for a fixed deterministic oracle, whenever the Initial-Sample Finder
succeeds and the run produces an output, that output satisfies the
oracle-based adversarial predicate: the oracle's class on the output equals
the target label when the attack is targeted, and differs from the oracle's
class on the original input when it is untargeted — for every `max_iter ≥ 0`,
including `max_iter = 0`, where the output is the initial sample. -/
theorem attack_output_adversarial (cfg : Config) (oracle : Oracle) (sqrtf : ℚ → ℚ)
    (noisef : ℕ → ℕ → Sample) (rng : ℕ → Sample) (bsFuel stepFuel : ℕ) (x : Sample)
    (y : ℕ) (adv_init : Option Sample) (cmin cmax : ℚ) (out : Sample)
    (hx : ∀ v ∈ x, cmin ≤ v ∧ v ≤ cmax)
    (hrl : ∀ i, (rng i).length = x.length)
    (hrb : ∀ i, ∀ v ∈ rng i, cmin ≤ v ∧ v ≤ cmax)
    (hinit : initSample cfg oracle bsFuel x y (oracle x) (adv_init.map oracle) adv_init none
      cmin cmax rng ≠ none)
    (hrun : generateOne cfg oracle sqrtf noisef rng bsFuel stepFuel x y adv_init cmin cmax =
      some out) :
    (cfg.targeted = true → oracle out = y) ∧
    (cfg.targeted = false → oracle out ≠ oracle x) := by
  simp only [generateOne, perturb] at hrun
  cases hi : initSample cfg oracle bsFuel x y (oracle x) (adv_init.map oracle) adv_init none
      cmin cmax rng with
  | none => exact absurd hi hinit
  | some pr =>
    rw [hi] at hrun
    obtain ⟨proj, lbl⟩ := pr
    cases proj with
    | none =>
      have hrun' : (none : Option Sample) = some out := hrun
      exact Option.noConfusion hrun'
    | some initial =>
      have hatt : attack cfg oracle sqrtf noisef bsFuel stepFuel initial x lbl none cmin cmax 0 =
          some out := hrun
      obtain ⟨hlbl, hcase⟩ := initSample_some_spec cfg oracle bsFuel x y (oracle x)
        (adv_init.map oracle) adv_init none cmin cmax rng initial lbl hi
      have hkey : advRaw cfg oracle lbl initial = true := by
        rcases hcase with ⟨ha, hipred⟩ | ⟨d, hd, hcond, hbs⟩
        · rcases hipred with ⟨ht, hip⟩ | ⟨ht', hip⟩
          · rw [ha] at hip
            simp only [Option.map_some'] at hip
            have ho : oracle initial = y := Option.some_inj.mp hip
            have hl : lbl = y := by
              rcases hlbl with ⟨_, hl⟩ | ⟨hf, _⟩
              · exact hl
              · rw [ht] at hf
                exact Bool.noConfusion hf
            simp only [advRaw, ht, if_true, decide_eq_true_eq]
            rw [ho, hl]
          · rw [ha] at hip
            simp only [Option.map_some'] at hip
            have ho : oracle initial ≠ oracle x := fun hc => hip (by rw [hc])
            have hl : lbl = oracle x := by
              rcases hlbl with ⟨hf, _⟩ | ⟨_, hl⟩
              · rw [ht'] at hf
                exact Bool.noConfusion hf
              · exact hl
            simp only [advRaw, ht', Bool.false_eq_true, if_false, decide_eq_true_eq]
            rw [hl]
            exact ho
        · simp only [maskApply] at hcond hbs
          obtain ⟨i, _, hdi⟩ := List.mem_map.mp hd
          have hdb : ∀ v ∈ d, cmin ≤ v ∧ v ≤ cmax := by rw [← hdi]; exact hrb i
          have hdl : d.length = x.length := by rw [← hdi]; exact hrl i
          have hadv_d : adversarialSatisfactory cfg oracle lbl cmin cmax d = true := by
            rw [adversarialSatisfactory_of_mem cfg oracle lbl cmin cmax d hdb]
            rcases hcond with ⟨ht, ho⟩ | ⟨ht', ho⟩
            · have hl : lbl = y := by
                rcases hlbl with ⟨_, hl⟩ | ⟨hf, _⟩
                · exact hl
                · rw [ht] at hf
                  exact Bool.noConfusion hf
              simp only [advRaw, ht, if_true, decide_eq_true_eq]
              rw [ho, hl]
            · have hl : lbl = oracle x := by
                rcases hlbl with ⟨hf, _⟩ | ⟨_, hl⟩
                · rw [ht'] at hf
                  exact Bool.noConfusion hf
                · exact hl
              simp only [advRaw, ht', Bool.false_eq_true, if_false, decide_eq_true_eq]
              rw [hl]
              exact ho
          have hadv_init : adversarialSatisfactory cfg oracle lbl cmin cmax initial = true :=
            binarySearch_some_adv cfg oracle bsFuel d x lbl .l2 cmin cmax (some (1 / 1000))
              initial hdl hadv_d hbs.symm
          have hmem_init : ∀ v ∈ initial, cmin ≤ v ∧ v ≤ cmax :=
            binarySearch_some_mem cfg oracle bsFuel d x lbl .l2 cmin cmax (some (1 / 1000))
              initial hdb hx hbs.symm
          rw [← adversarialSatisfactory_of_mem cfg oracle lbl cmin cmax initial hmem_init]
          exact hadv_init
      have hout : advRaw cfg oracle lbl out = true :=
        attack_some_advRaw cfg oracle sqrtf noisef bsFuel stepFuel initial x lbl none cmin cmax
          0 out hkey hatt
      constructor
      · intro ht
        have hl : lbl = y := by
          rcases hlbl with ⟨_, hl⟩ | ⟨hf, _⟩
          · exact hl
          · rw [ht] at hf
            exact Bool.noConfusion hf
        simp only [advRaw, ht, if_true, decide_eq_true_eq] at hout
        rw [← hl]
        exact hout
      · intro ht'
        have hl : lbl = oracle x := by
          rcases hlbl with ⟨hf, _⟩ | ⟨_, hl⟩
          · rw [ht'] at hf
            exact Bool.noConfusion hf
          · exact hl
        simp only [advRaw, ht', Bool.false_eq_true, if_false, decide_eq_true_eq] at hout
        rw [← hl]
        exact hout

theorem attack_output_adversarial_witness :
    (cfgBase.targeted = true → oracleHalf [641 / 1280] = 0) ∧
    (cfgBase.targeted = false → oracleHalf [641 / 1280] ≠ oracleHalf [1 / 10]) :=
  attack_output_adversarial cfgBase oracleHalf id (fun _ _ => [1]) (fun _ => [1]) 10 0
    [1 / 10] 0 none 0 1 [641 / 1280]
    (by norm_num)
    (fun i => rfl)
    (fun i => by norm_num)
    (fun hc => by
      rw [show initSample cfgBase oracleHalf 10 [1 / 10] 0 (oracleHalf [1 / 10])
            (Option.map oracleHalf none) none none 0 1 (fun _ => [1]) =
            some (some [641 / 1280], 0) from by
          norm_num [initSample, initLoopUntargeted, advInitHitUntargeted, binarySearch,
            binSearchLoop, interpolate, adversarialSatisfactory, clipSample, clipScalar,
            oracleHalf, maskApply, cfgBase, List.range_succ]] at hc
      exact Option.noConfusion hc)
    (by norm_num [generateOne, perturb, initSample, initLoopUntargeted, advInitHitUntargeted,
      binarySearch, binSearchLoop, interpolate, adversarialSatisfactory, clipSample, clipScalar,
      oracleHalf, maskApply, attack, attackLoop, cfgBase, List.range_succ])

/-! ## Bounds of the produced samples -/

theorem initSampleE_eq_ok_initSample (cfg : Config) (oracle : Oracle) (fuel : ℕ) (x : Sample)
    (y y_p : ℕ) (mask : Option Sample) (cmin cmax : ℚ) (rng : ℕ → Sample) :
    initSampleE cfg oracle fuel x y y_p none mask cmin cmax rng =
      .ok (initSample cfg oracle fuel x y y_p none none mask cmin cmax rng) := by
  by_cases ht : cfg.targeted = true
  · by_cases hy : y = y_p <;>
      simp [initSampleE, initSample, ht, hy, advInitHitTargeted]
  · have ht' : cfg.targeted = false := by simpa using ht
    simp [initSampleE, initSample, ht', advInitHitUntargeted]

/-- C8: every sample produced by any stage of a completed run lies within
`[clip_min, clip_max]`: a binary-search projection of in-bounds samples is in
bounds (the L2 interpolation is a convex combination, the L∞ clipping a clamp
around an in-bounds original), every accepted driver step is clipped into
bounds, and the final output of every completed per-sample `generate` run is
in bounds — under the faithful model of the initial-example path, whose class
check on a supplied `x_adv_init` raises (line 139 stores un-argmaxed scores),
so no caller-supplied sample ever seeds the search. -/
theorem produced_samples_in_bounds :
    (∀ (cfg : Config) (oracle : Oracle) (fuel : ℕ) (cur orig : Sample) (target : ℕ)
        (norm : NormT) (cmin cmax : ℚ) (thr : Option ℚ) (res : Sample),
      (∀ v ∈ cur, cmin ≤ v ∧ v ≤ cmax) → (∀ v ∈ orig, cmin ≤ v ∧ v ≤ cmax) →
      binarySearch cfg oracle fuel cur orig target norm cmin cmax thr = some res →
      ∀ v ∈ res, cmin ≤ v ∧ v ≤ cmax) ∧
    (∀ (cfg : Config) (oracle : Oracle) (sqrtf : ℚ → ℚ) (noisef : ℕ → ℕ → Sample)
        (bsFuel stepFuel : ℕ) (orig : Sample) (target : ℕ) (mask : Option Sample)
        (cmin cmax : ℚ), cmin ≤ cmax →
      ∀ (k it : ℕ) (cur out : Sample), (∀ v ∈ cur, cmin ≤ v ∧ v ≤ cmax) →
        attackLoop cfg oracle sqrtf noisef bsFuel stepFuel orig target mask cmin cmax k it cur =
          some out →
        ∀ v ∈ out, cmin ≤ v ∧ v ≤ cmax) ∧
    (∀ (cfg : Config) (oracle : Oracle) (sqrtf : ℚ → ℚ) (noisef : ℕ → ℕ → Sample)
        (rng : ℕ → Sample) (bsFuel stepFuel : ℕ) (x : Sample) (y : ℕ)
        (adv_init : Option Sample) (cmin cmax : ℚ) (out : Sample), cmin ≤ cmax →
      (∀ v ∈ x, cmin ≤ v ∧ v ≤ cmax) →
      (∀ i, ∀ v ∈ rng i, cmin ≤ v ∧ v ≤ cmax) →
      generateOneE cfg oracle sqrtf noisef rng bsFuel stepFuel x y adv_init cmin cmax =
        .ok (some out) →
      ∀ v ∈ out, cmin ≤ v ∧ v ≤ cmax) := by
  refine ⟨binarySearch_some_mem, attackLoop_mem, ?_⟩
  intro cfg oracle sqrtf noisef rng bsFuel stepFuel x y adv_init cmin cmax out hle hx hrb hrun
  cases adv_init with
  | some ai =>
    simp only [generateOneE, perturbE, initSampleE] at hrun
    by_cases ht : cfg.targeted = true
    · rw [if_pos ht] at hrun
      by_cases hy : y = oracle x
      · rw [if_pos hy] at hrun
        have hrun' : (Except.ok (some x) : Except String (Option Sample)) = .ok (some out) :=
          hrun
        rw [← Option.some_inj.mp (Except.ok.inj hrun')]
        exact hx
      · rw [if_neg hy] at hrun
        have hrun' : (Except.error tensorBoolErr : Except String (Option Sample)) =
            .ok (some out) := hrun
        exact Except.noConfusion hrun'
    · rw [if_neg ht] at hrun
      have hrun' : (Except.error tensorBoolErr : Except String (Option Sample)) =
          .ok (some out) := hrun
      exact Except.noConfusion hrun'
  | none =>
    simp only [generateOneE, perturbE] at hrun
    rw [initSampleE_eq_ok_initSample] at hrun
    cases hi : initSample cfg oracle bsFuel x y (oracle x) none none none cmin cmax rng with
    | none =>
      rw [hi] at hrun
      have hrun' : (Except.ok (some x) : Except String (Option Sample)) = .ok (some out) := hrun
      rw [← Option.some_inj.mp (Except.ok.inj hrun')]
      exact hx
    | some pr =>
      rw [hi] at hrun
      obtain ⟨proj, lbl⟩ := pr
      cases proj with
      | none =>
        have hrun' : (Except.ok (none : Option Sample) : Except String (Option Sample)) =
            .ok (some out) := hrun
        exact Option.noConfusion (Except.ok.inj hrun')
      | some initial =>
        have hatt : attack cfg oracle sqrtf noisef bsFuel stepFuel initial x lbl none cmin
            cmax 0 = some out := Except.ok.inj hrun
        obtain ⟨_, hcase⟩ := initSample_some_spec cfg oracle bsFuel x y (oracle x) none none
          none cmin cmax rng initial lbl hi
        have hinit_mem : ∀ v ∈ initial, cmin ≤ v ∧ v ≤ cmax := by
          rcases hcase with ⟨ha, _⟩ | ⟨d, hd, _, hbs⟩
          · exact Option.noConfusion ha
          · simp only [maskApply] at hbs
            obtain ⟨i, _, hdi⟩ := List.mem_map.mp hd
            have hdb : ∀ v ∈ d, cmin ≤ v ∧ v ≤ cmax := by rw [← hdi]; exact hrb i
            exact binarySearch_some_mem cfg oracle bsFuel d x lbl .l2 cmin cmax
              (some (1 / 1000)) initial hdb hx hbs.symm
        unfold attack at hatt
        exact attackLoop_mem cfg oracle sqrtf noisef bsFuel stepFuel x lbl none cmin cmax hle
          cfg.max_iter 0 initial out hinit_mem hatt

theorem produced_samples_in_bounds_witness :
    ∀ v ∈ [(641 : ℚ) / 1280], (0 : ℚ) ≤ v ∧ v ≤ 1 :=
  produced_samples_in_bounds.2.2 cfgBase oracleHalf id (fun _ _ => [1]) (fun _ => [1]) 10 0
    [1 / 10] 0 none 0 1 [641 / 1280] (by norm_num) (by norm_num) (fun i => by norm_num)
    (by norm_num [generateOneE, perturbE, initSampleE, initLoopUntargeted, binarySearch,
      binSearchLoop, interpolate, adversarialSatisfactory, clipSample, clipScalar, oracleHalf,
      maskApply, attack, attackLoop, cfgBase, List.range_succ])

end HSJ
